import Mathlib

/-!
Shallow embedding of the Myack RPC dispatch subsystem
(`myack/exc.py`, `myack/rpc/api.py`, `myack/rpc/transport.py`).

Python dictionaries are modelled as association lists with
insertion-order semantics: setting an existing key replaces the value
in place, setting a fresh key appends at the end, and iteration follows
the list order.  Machine integers do not overflow in the modelled code,
so they are modelled as `Int`/`Nat`.
-/

namespace Myack

/-- JSON-like values as produced by the wire codec.  A Python `bool` is kept
distinct from `int` because `isinstance(b, int)` holds for booleans and the
transport layer checks `isinstance(..., int)` on raw ids; `pyIsInt` below
reflects that subtlety. -/
inductive Value : Type where
  | null : Value
  | bool (b : Bool) : Value
  | int (n : Int) : Value
  | str (s : String) : Value
  | arr (vs : List Value) : Value
  | obj (kvs : List (String × Value)) : Value

section AList

variable {κ : Type} [DecidableEq κ] {β : Type}

/-- Python `d[k]` / `d.get(k)`: first (and in a real dict, only) binding of
the key. -/
def alistFind? (l : List (κ × β)) (k : κ) : Option β :=
  match l with
  | [] => none
  | (k', v) :: rest => if k' = k then some v else alistFind? rest k

/-- Replace the value stored at the first occurrence of key `k`, keeping its
position; leave the list unchanged if `k` is absent. -/
def alistSet (l : List (κ × β)) (k : κ) (v : β) : List (κ × β) :=
  match l with
  | [] => []
  | (k', v') :: rest =>
    if k' = k then (k', v) :: rest else (k', v') :: alistSet rest k v

/-- Python `d[k] = v` on a dict: replace in place when the key exists,
append at the end otherwise. -/
def dictSet (l : List (κ × β)) (k : κ) (v : β) : List (κ × β) :=
  if (alistFind? l k).isSome then alistSet l k v else l ++ [(k, v)]

theorem alistFind?_append (a b : List (κ × β)) (k : κ) :
    alistFind? (a ++ b) k =
      match alistFind? a k with
      | some v => some v
      | none => alistFind? b k := by
  induction a with
  | nil => simp [alistFind?]
  | cons hd tl ih =>
    obtain ⟨k', v⟩ := hd
    by_cases h : k' = k <;> simp [alistFind?, h, ih]

theorem alistFind?_eq_none_iff (l : List (κ × β)) (k : κ) :
    alistFind? l k = none ↔ k ∉ l.map Prod.fst := by
  induction l with
  | nil => simp [alistFind?]
  | cons hd tl ih =>
    obtain ⟨k', v⟩ := hd
    by_cases h : k' = k
    · subst h
      simp [alistFind?]
    · rw [alistFind?, if_neg h, ih, List.map_cons]
      constructor
      · intro hk hmem
        rcases List.mem_cons.mp hmem with h1 | h2
        · exact h h1.symm
        · exact hk h2
      · intro hk hmem
        exact hk (List.mem_cons_of_mem _ hmem)

theorem alistFind?_isSome_iff (l : List (κ × β)) (k : κ) :
    (alistFind? l k).isSome = true ↔ k ∈ l.map Prod.fst := by
  rw [Option.isSome_iff_ne_none, ne_eq, alistFind?_eq_none_iff, not_not]

theorem alistFind?_set_self (l : List (κ × β)) (k : κ) (v : β)
    (h : (alistFind? l k).isSome = true) :
    alistFind? (alistSet l k v) k = some v := by
  induction l with
  | nil => simp [alistFind?] at h
  | cons hd tl ih =>
    obtain ⟨k', v'⟩ := hd
    by_cases hk : k' = k
    · simp [alistFind?, alistSet, hk]
    · simp [alistFind?, alistSet, hk] at h ⊢
      exact ih h

theorem alistFind?_set_ne (l : List (κ × β)) (k k' : κ) (v : β) (h : k ≠ k') :
    alistFind? (alistSet l k v) k' = alistFind? l k' := by
  induction l with
  | nil => simp [alistSet]
  | cons hd tl ih =>
    obtain ⟨k₀, v₀⟩ := hd
    by_cases hk : k₀ = k
    · subst hk
      simp [alistSet, alistFind?, h]
    · simp [alistSet, alistFind?, hk, ih]

theorem alistSet_map_fst (l : List (κ × β)) (k : κ) (v : β) :
    (alistSet l k v).map Prod.fst = l.map Prod.fst := by
  induction l with
  | nil => simp [alistSet]
  | cons hd tl ih =>
    obtain ⟨k₀, v₀⟩ := hd
    by_cases hk : k₀ = k <;> simp [alistSet, hk, ih]

theorem dictSet_find_self (l : List (κ × β)) (k : κ) (v : β) :
    alistFind? (dictSet l k v) k = some v := by
  by_cases h : (alistFind? l k).isSome = true
  · simp [dictSet, h, alistFind?_set_self l k v h]
  · have hn : alistFind? l k = none := by
      cases hopt : alistFind? l k
      · rfl
      · rw [hopt] at h
        simp at h
    simp [dictSet, hn, alistFind?_append, alistFind?]

theorem dictSet_find_ne (l : List (κ × β)) (k k' : κ) (v : β) (h : k ≠ k') :
    alistFind? (dictSet l k v) k' = alistFind? l k' := by
  by_cases hs : (alistFind? l k).isSome = true
  · simp [dictSet, hs, alistFind?_set_ne l k k' v h]
  · have hn : alistFind? l k = none := by
      cases hopt : alistFind? l k
      · rfl
      · rw [hopt] at hs
        simp at hs
    simp only [dictSet, hn, Option.isSome_none, Bool.false_eq_true, if_false]
    rw [alistFind?_append]
    cases hfind : alistFind? l k' <;> simp [alistFind?, h]

/-- When the key is fresh, a dict assignment is an append. -/
theorem dictSet_of_not_mem (l : List (κ × β)) (k : κ) (v : β)
    (h : k ∉ l.map Prod.fst) :
    dictSet l k v = l ++ [(k, v)] := by
  unfold dictSet
  rw [← alistFind?_eq_none_iff] at h
  simp [h]

theorem alistFind?_eq_some_split (l : List (κ × β)) (k : κ) (g : β)
    (h : alistFind? l k = some g) :
    ∃ l₁ l₂, l = l₁ ++ (k, g) :: l₂ ∧ k ∉ l₁.map Prod.fst := by
  induction l with
  | nil => cases h
  | cons hd tl ih =>
    obtain ⟨k', v'⟩ := hd
    by_cases hk : k' = k
    · subst hk
      rw [alistFind?, if_pos rfl] at h
      injection h with h
      subst h
      exact ⟨[], tl, rfl, by simp⟩
    · rw [alistFind?, if_neg hk] at h
      obtain ⟨l₁, l₂, heq, hnot⟩ := ih h
      refine ⟨(k', v') :: l₁, l₂, by rw [heq]; rfl, ?_⟩
      simp only [List.map_cons, List.mem_cons]
      rintro (hc | hc)
      · exact hk hc.symm
      · exact hnot hc

theorem alistSet_append_of_not_mem (a b : List (κ × β)) (k : κ) (v : β)
    (h : k ∉ a.map Prod.fst) :
    alistSet (a ++ b) k v = a ++ alistSet b k v := by
  induction a with
  | nil => simp
  | cons hd tl ih =>
    obtain ⟨k', v'⟩ := hd
    simp only [List.map_cons, List.mem_cons] at h
    push_neg at h
    obtain ⟨h1, h2⟩ := h
    rw [List.cons_append, alistSet, if_neg (fun hc => h1 hc.symm)]
    rw [List.cons_append, ih h2]

end AList

/-! ### Exception taxonomy (`myack/exc.py`) -/

/-- Static data of an exception variant class: the class-level `code`
computed by `__init_subclass__` and the class-level default `message`
(`None` for classes that do not override it). -/
structure ExcClass where
  code : String
  defaultMessage : Option String
deriving DecidableEq, Repr

/-- A constructed exception instance.  Two instances are equal iff they agree
on `(code, message, data)`, which is exactly `BaseExc.__eq__` (`type(self) is
type(other) and self.args == other.args`) whenever codes identify variant
classes uniquely (the registry invariant of C6). -/
structure ExcInstance where
  code : String
  message : String
  data : List (String × Value)

/-- `self.message = message or self.message`: Python truthiness makes an
empty-string argument fall back to the class default, exactly like `None`. -/
def resolveMessage (arg : Option String) (dflt : Option String) : Option String :=
  match arg with
  | some m => if m = "" then dflt else some m
  | none => dflt

/-- `BaseExc.__init__`: store the resolved message and the keyword `data`;
`assert self.message is not None` makes construction fail (`none`) when no
message is available. -/
def mkExc (cls : ExcClass) (arg : Option String) (data : List (String × Value)) :
    Option ExcInstance :=
  (resolveMessage arg cls.defaultMessage).map (fun m => ⟨cls.code, m, data⟩)

/-- `class UndefinedExc(BaseExc, code="undefined")` with default message
`"Undefined exception"`. -/
def UndefinedExcClass : ExcClass := ⟨"undefined", some "Undefined exception"⟩

def optStrValue : Option String → Value
  | none => .null
  | some s => .str s

/-- `BaseExc.dispatch`: reconstruct an instance from a wire triple by registry
lookup; an unknown code yields the undefined variant carrying the original
triple under `data["original"]`. -/
def excDispatch (registry : List (String × ExcClass)) (code : String)
    (message : Option String) (data : List (String × Value)) : Option ExcInstance :=
  match alistFind? registry code with
  | some cls => mkExc cls message data
  | none =>
      mkExc UndefinedExcClass none
        [("original", Value.obj
          [("code", .str code), ("message", optStrValue message), ("data", .obj data)])]

/-- `BaseExc.dump`. -/
def ExcInstance.dump (e : ExcInstance) : String × String × List (String × Value) :=
  (e.code, e.message, e.data)

/-- `__init_subclass__` code composition: `cls.code = f"{cls.code}.{code}"`,
falling back to the bare short code when the parent (i.e. `BaseExc` itself)
has no `code` attribute. -/
def subclassCode (parentCode : Option String) (short : String) : String :=
  match parentCode with
  | some p => p ++ "." ++ short
  | none => short

/-- The `code` attribute a class ends up with, given the short codes declared
along its subclass chain from `BaseExc` (outermost ancestor first).  `none`
corresponds to `BaseExc` itself, which never runs `__init_subclass__`. -/
def codeOfChain (chain : List String) : Option String :=
  chain.foldl (fun acc short => some (subclassCode acc short)) none

/-- The dot-joined composition of a chain of short codes, as the spec states
it (`error` then `rpc` then `invalid_params` gives `error.rpc.invalid_params`). -/
def dotJoined : List String → String
  | [] => ""
  | [c] => c
  | c :: rest => c ++ "." ++ dotJoined rest

/-- One `__init_subclass__` registration step: compute the class code, fail
the assertion (load-time fatal) when the code is already registered, append
the new entry otherwise.  The registry value records the declared chain. -/
def registerChain (registry : List (String × List String)) (chain : List String) :
    Except String (List (String × List String)) :=
  match codeOfChain chain with
  | none => .ok registry
  | some code =>
      if (alistFind? registry code).isSome then .error code
      else .ok (registry ++ [(code, chain)])

/-- Loading a module: every class declaration registers in order; the first
conflicting declaration aborts the load with the offending code. -/
def registerAllFrom (registry : List (String × List String)) :
    List (List String) → Except String (List (String × List String))
  | [] => .ok registry
  | chain :: rest =>
      match registerChain registry chain with
      | .error c => .error c
      | .ok reg => registerAllFrom reg rest

def registerAll (decls : List (List String)) :
    Except String (List (String × List String)) :=
  registerAllFrom [] decls

theorem codeOfChain_fold (cs : List String) (p : String) :
    cs.foldl (fun acc short => some (subclassCode acc short)) (some p) =
      some (dotJoined (p :: cs)) := by
  induction cs generalizing p with
  | nil => simp [dotJoined]
  | cons c cs ih =>
    rw [List.foldl_cons]
    have hstep : subclassCode (some p) c = p ++ "." ++ c := rfl
    rw [hstep, ih]
    congr 1
    cases cs with
    | nil => rfl
    | cons d ds => simp [dotJoined, String.append_assoc]

theorem codeOfChain_cons (c : String) (cs : List String) :
    codeOfChain (c :: cs) = some (dotJoined (c :: cs)) := by
  unfold codeOfChain
  rw [List.foldl_cons]
  exact codeOfChain_fold cs c

theorem registerAllFrom_nodup (decls : List (List String)) :
    ∀ (reg reg' : List (String × List String)), (reg.map Prod.fst).Nodup →
      registerAllFrom reg decls = .ok reg' → (reg'.map Prod.fst).Nodup := by
  induction decls with
  | nil =>
    intro reg reg' h heq
    cases heq
    exact h
  | cons chain rest ih =>
    intro reg reg' h heq
    unfold registerAllFrom at heq
    cases hstep : registerChain reg chain with
    | error c =>
      rw [hstep] at heq
      cases heq
    | ok reg1 =>
      rw [hstep] at heq
      refine ih reg1 reg' ?_ heq
      unfold registerChain at hstep
      cases hc : codeOfChain chain with
      | none =>
        rw [hc] at hstep
        cases hstep
        exact h
      | some code =>
        rw [hc] at hstep
        by_cases hdup : (alistFind? reg code).isSome = true
        · simp [hdup] at hstep
        · simp [hdup] at hstep
          subst hstep
          have hnot : code ∉ reg.map Prod.fst := by
            intro hmem
            exact hdup ((alistFind?_isSome_iff reg code).mpr hmem)
          rw [List.map_append, List.nodup_append]
          refine ⟨h, List.nodup_singleton _, ?_⟩
          intro a ha hb
          simp at hb
          subst hb
          exact hnot ha

theorem registerAllFrom_duplicate_fatal (reg : List (String × List String))
    (chain : List String) (code : String) (rest : List (List String))
    (hc : codeOfChain chain = some code) (hmem : code ∈ reg.map Prod.fst) :
    registerAllFrom reg (chain :: rest) = .error code := by
  have hfind : (alistFind? reg code).isSome = true :=
    (alistFind?_isSome_iff reg code).mpr hmem
  simp [registerAllFrom, registerChain, hc, hfind]

theorem resolveMessage_idem (arg dflt : Option String) (m : String)
    (h : resolveMessage arg dflt = some m) :
    resolveMessage (some m) dflt = some m := by
  cases arg with
  | none =>
    have hd : dflt = some m := h
    by_cases hm : m = "" <;> simp [resolveMessage, hm, hd]
  | some a =>
    by_cases ha : a = ""
    · have hd : dflt = some m := by simpa [resolveMessage, ha] using h
      by_cases hm : m = "" <;> simp [resolveMessage, hm, hd]
    · have ham : a = m := by simpa [resolveMessage, ha] using h
      subst ham
      simp [resolveMessage, ha]

/-- C5: exception wire round-trip.  For every instance `v` constructed from a
registered variant class, `dispatch(v.dump().code, v.dump().message,
**v.dump().data)` rebuilds an instance equal to `v` (same code, message and
data); for every unregistered code the dispatch yields the distinguished
undefined variant whose `data.original` is exactly the input
`{code, message, data}` triple. -/
theorem exc_dispatch_round_trip :
    (∀ (registry : List (String × ExcClass)) (cls : ExcClass) (arg : Option String)
        (v : ExcInstance),
        mkExc cls arg v.data = some v →
        alistFind? registry v.code = some cls →
        excDispatch registry v.code (some v.message) v.data = some v)
    ∧ (∀ (registry : List (String × ExcClass)) (code : String)
        (message : Option String) (data : List (String × Value)),
        alistFind? registry code = none →
        excDispatch registry code message data =
          some ⟨"undefined", "Undefined exception",
            [("original", Value.obj [("code", .str code),
              ("message", optStrValue message), ("data", .obj data)])]⟩) := by
  constructor
  · intro registry cls arg v hmk hreg
    obtain ⟨vc, vm, vd⟩ := v
    unfold excDispatch
    rw [hreg]
    unfold mkExc at hmk ⊢
    cases hr : resolveMessage arg cls.defaultMessage with
    | none =>
      rw [hr] at hmk
      simp at hmk
    | some m =>
      rw [hr] at hmk
      simp only [Option.map_some'] at hmk
      injection hmk with hmk
      cases hmk
      simp [resolveMessage_idem arg cls.defaultMessage _ hr]
  · intro registry code message data hnone
    unfold excDispatch
    rw [hnone]
    rfl

/-- Witness for C5 at a concrete registry: the registered variant
`error.custom` round-trips, and the unregistered code `nope` produces the
undefined variant carrying the original triple. -/
theorem exc_dispatch_round_trip_witness :
    excDispatch [("error.custom", ⟨"error.custom", some "Custom failure"⟩)]
        "error.custom" (some "Custom failure") [("x", .int 1)] =
      some ⟨"error.custom", "Custom failure", [("x", .int 1)]⟩
    ∧ excDispatch [("error.custom", ⟨"error.custom", some "Custom failure"⟩)]
        "nope" (some "boom") [] =
      some ⟨"undefined", "Undefined exception",
        [("original", Value.obj [("code", .str "nope"),
          ("message", .str "boom"), ("data", .obj [])])]⟩ := by
  constructor
  · exact exc_dispatch_round_trip.1
      [("error.custom", ⟨"error.custom", some "Custom failure"⟩)]
      ⟨"error.custom", some "Custom failure"⟩ none
      ⟨"error.custom", "Custom failure", [("x", .int 1)]⟩ rfl rfl
  · exact exc_dispatch_round_trip.2
      [("error.custom", ⟨"error.custom", some "Custom failure"⟩)]
      "nope" (some "boom") [] rfl

/-- C6: every registered variant's code is the dot-joined composition of the
short codes along its declared subclass chain; a successfully loaded registry
has globally unique codes; and declaring a variant whose code is already
registered is a load-time fatal error (the registration aborts), not a
request-time one. -/
theorem exc_code_registry_invariant :
    (∀ (c : String) (cs : List String),
        codeOfChain (c :: cs) = some (dotJoined (c :: cs)))
    ∧ (∀ (decls : List (List String)) (reg : List (String × List String)),
        registerAll decls = .ok reg → (reg.map Prod.fst).Nodup)
    ∧ (∀ (reg : List (String × List String)) (chain : List String) (code : String)
        (rest : List (List String)),
        codeOfChain chain = some code → code ∈ reg.map Prod.fst →
        registerAllFrom reg (chain :: rest) = .error code) := by
  refine ⟨codeOfChain_cons, ?_, registerAllFrom_duplicate_fatal⟩
  intro decls reg hok
  exact registerAllFrom_nodup decls [] reg (by simp) hok

/-- Witness for C6: the chain `error`, `rpc`, `invalid_params` yields the code
`error.rpc.invalid_params`; loading the builtin chains succeeds with unique
codes; re-declaring a variant with the already-registered code `error` is a
load-time fatal error. -/
theorem exc_code_registry_invariant_witness :
    codeOfChain ["error", "rpc", "invalid_params"] =
      some "error.rpc.invalid_params"
    ∧ (((registerAll [["error"], ["error", "rpc"],
          ["error", "rpc", "invalid_params"]]).toOption.getD []).map
            Prod.fst).Nodup
    ∧ registerAllFrom [("error", ["error"])] [["error"]] = .error "error" := by
  refine ⟨?_, ?_, ?_⟩
  · have h := exc_code_registry_invariant.1 "error" ["rpc", "invalid_params"]
    simpa [dotJoined] using h
  · have h := exc_code_registry_invariant.2.1
      [["error"], ["error", "rpc"], ["error", "rpc", "invalid_params"]]
    have hok : registerAll [["error"], ["error", "rpc"],
        ["error", "rpc", "invalid_params"]] =
        .ok [("error", ["error"]), ("error.rpc", ["error", "rpc"]),
          ("error.rpc.invalid_params", ["error", "rpc", "invalid_params"])] := by
      rfl
    rw [hok]
    exact h _ hok
  · exact exc_code_registry_invariant.2.2 [("error", ["error"])] ["error"]
      "error" [] rfl (by simp)

/-! ### Handler wrapper (`Dispatcher.dispatch`, `myack/rpc/api.py` lines 144-167) -/

/-- `isinstance(e, C)` for two classes of the coded-exception taxonomy: by the
C6 invariant, `C` is an ancestor of `e`'s class iff `C.code` is a dot-prefix
of `e`'s code (or equal to it). -/
def isSubclassOf (ancestorCode : String) (code : String) : Bool :=
  code == ancestorCode || List.isPrefixOf (ancestorCode ++ ".").data code.data

/-- `isinstance(e, request.handler_info["raises"])` against the declared
tuple of variant classes, given by their codes. -/
def matchesRaises (raisesCodes : List String) (code : String) : Bool :=
  raisesCodes.any (fun r => isSubclassOf r code)

/-- `class BaseError(BaseExc, code="error")`: the root of the coded-error
taxonomy. -/
def baseErrorCode : String := "error"

/-- The `version` entry of `request.meta` as a wire value. -/
def versionValue : Option (Nat × Nat) → Value
  | none => .null
  | some (a, b) => .arr [.int a, .int b]

/-- `e.data.update(method=request.method, version=request.meta.get("version"))`. -/
def contextData (data : List (String × Value)) (method : String)
    (version : Option (Nat × Nat)) : List (String × Value) :=
  dictSet (dictSet data "method" (.str method)) "version" (versionValue version)

/-- `RPCInternalError(method=..., version=...)`: code `error.rpc.internal`,
default message, data made of the two keyword arguments. -/
def internalErrorExc (method : String) (version : Option (Nat × Nat)) : ExcInstance :=
  ⟨"error.rpc.internal", "Internal server error",
    [("method", .str method), ("version", versionValue version)]⟩

/-- How awaiting the handler coroutine ends inside `wrapper`. -/
inductive HandlerOutcome where
  | ok (result : Value)
  | cancelled
  | exc (e : ExcInstance)

/-- What `wrapper` itself does: return a response, let the cancellation
propagate, or raise an exception. -/
inductive WrapperResult where
  | success (result : Value)
  | cancelled
  | raised (e : ExcInstance)

/-- The `try/except` ladder of `wrapper`: success becomes
`request.response(result=result)`; `asyncio.CancelledError` is re-raised; an
exception that is an instance of the declared `raises` set and of `BaseError`
gets its data enriched and is re-raised as-is; anything else is logged and
replaced by `RPCInternalError(method=..., version=...)`. -/
def wrapperOutcome (raisesCodes : List String) (method : String)
    (version : Option (Nat × Nat)) : HandlerOutcome → WrapperResult
  | .ok v => .success v
  | .cancelled => .cancelled
  | .exc e =>
      if matchesRaises raisesCodes e.code && isSubclassOf baseErrorCode e.code then
        .raised ⟨e.code, e.message, contextData e.data method version⟩
      else
        .raised (internalErrorExc method version)

/-- `params = dict(request.params, **request.injections)` (line 146): copy the
validated params, then assign every injection key on top of them. -/
def mergeCallArgs (params injections : List (String × Value)) :
    List (String × Value) :=
  injections.foldl (fun acc kv => dictSet acc kv.1 kv.2) params

theorem mergeCallArgs_find (injections : List (String × Value)) :
    ∀ (params : List (String × Value)) (k : String),
      (injections.map Prod.fst).Nodup →
      alistFind? (mergeCallArgs params injections) k =
        match alistFind? injections k with
        | some v => some v
        | none => alistFind? params k := by
  induction injections with
  | nil =>
    intro params k _
    simp [mergeCallArgs, alistFind?]
  | cons kv rest ih =>
    intro params k hnodup
    obtain ⟨k0, v0⟩ := kv
    rw [List.map_cons, List.nodup_cons] at hnodup
    obtain ⟨hk0, hrest⟩ := hnodup
    have hstep : mergeCallArgs params ((k0, v0) :: rest) =
        mergeCallArgs (dictSet params k0 v0) rest := by
      simp [mergeCallArgs]
    rw [hstep, ih (dictSet params k0 v0) k hrest]
    by_cases hk : k0 = k
    · subst hk
      have hnone : alistFind? rest k0 = none :=
        (alistFind?_eq_none_iff rest k0).mpr hk0
      simp [alistFind?, hnone, dictSet_find_self]
    · simp [alistFind?, hk, dictSet_find_ne params k0 k v0 hk]

/-- C3: for every exception raised by the handler, one declared in `raises`
and belonging to the coded-error taxonomy is re-raised with its data enriched
by `{method, version}` (both keys are set in the enriched data); any other
non-cancellation exception is replaced by the generic
`RPCInternalError(method=..., version=...)`; a cancellation is always
re-raised, never converted into an error or a response. -/
theorem handler_failure_masking :
    ∀ (raisesCodes : List String) (method : String) (version : Option (Nat × Nat)),
      wrapperOutcome raisesCodes method version .cancelled = .cancelled
      ∧ (∀ e : ExcInstance,
          matchesRaises raisesCodes e.code = true →
          isSubclassOf baseErrorCode e.code = true →
          wrapperOutcome raisesCodes method version (.exc e) =
            .raised ⟨e.code, e.message, contextData e.data method version⟩)
      ∧ (∀ e : ExcInstance,
          matchesRaises raisesCodes e.code = false ∨
            isSubclassOf baseErrorCode e.code = false →
          wrapperOutcome raisesCodes method version (.exc e) =
            .raised (internalErrorExc method version))
      ∧ (∀ data : List (String × Value),
          alistFind? (contextData data method version) "method" =
            some (.str method)
          ∧ alistFind? (contextData data method version) "version" =
            some (versionValue version)) := by
  intro raisesCodes method version
  refine ⟨rfl, ?_, ?_, ?_⟩
  · intro e h1 h2
    simp [wrapperOutcome, h1, h2]
  · intro e h
    rcases h with h | h <;> simp [wrapperOutcome, h]
  · intro data
    constructor
    · rw [contextData,
        dictSet_find_ne _ "version" "method" _ (by decide),
        dictSet_find_self]
    · rw [contextData, dictSet_find_self]

/-- Witness for C3 at concrete inputs: a declared coded error passes through
enriched, an undeclared exception is masked as internal error, and a
cancellation propagates. -/
theorem handler_failure_masking_witness :
    wrapperOutcome ["error.custom"] "foo.div" (some (2, 1))
        (.exc ⟨"error.custom", "Custom failure", []⟩) =
      .raised ⟨"error.custom", "Custom failure",
        contextData [] "foo.div" (some (2, 1))⟩
    ∧ wrapperOutcome ["error.custom"] "foo.div" (some (2, 1))
        (.exc ⟨"", "ValueError", []⟩) =
      .raised (internalErrorExc "foo.div" (some (2, 1)))
    ∧ wrapperOutcome ["error.custom"] "foo.div" (some (2, 1)) .cancelled =
      .cancelled := by
  refine ⟨?_, ?_, ?_⟩
  · exact (handler_failure_masking ["error.custom"] "foo.div" (some (2, 1))).2.1
      ⟨"error.custom", "Custom failure", []⟩ (by decide) (by decide)
  · exact (handler_failure_masking ["error.custom"] "foo.div" (some (2, 1))).2.2.1
      ⟨"", "ValueError", []⟩ (Or.inl (by decide))
  · exact (handler_failure_masking ["error.custom"] "foo.div" (some (2, 1))).1

/-- C10: the final call arguments are `dict(request.params,
**request.injections)`, so an injected key silently replaces a validated
client-supplied parameter of the same name, while keys not injected keep
their validated value. -/
theorem injections_override_params :
    ∀ (params injections : List (String × Value)) (k : String) (v : Value),
      (injections.map Prod.fst).Nodup →
      (alistFind? injections k = some v →
        alistFind? (mergeCallArgs params injections) k = some v)
      ∧ (alistFind? injections k = none →
        alistFind? (mergeCallArgs params injections) k = alistFind? params k) := by
  intro params injections k v hnodup
  constructor
  · intro h
    rw [mergeCallArgs_find injections params k hnodup, h]
  · intro h
    rw [mergeCallArgs_find injections params k hnodup, h]

/-- Witness for C10: the client's `x = 1` is replaced by the injected
`x = 10`, while the untouched `y` keeps its validated value. -/
theorem injections_override_params_witness :
    alistFind? (mergeCallArgs [("x", .int 1), ("y", .int 2)] [("x", .int 10)])
        "x" = some (.int 10)
    ∧ alistFind? (mergeCallArgs [("x", .int 1), ("y", .int 2)] [("x", .int 10)])
        "y" = alistFind? [("x", Value.int 1), ("y", Value.int 2)] "y" := by
  constructor
  · exact (injections_override_params [("x", .int 1), ("y", .int 2)]
      [("x", .int 10)] "x" (.int 10) (by simp)).1 rfl
  · exact (injections_override_params [("x", .int 1), ("y", .int 2)]
      [("x", .int 10)] "y" (.int 10) (by simp)).2 rfl

/-! ### Middleware accumulation and composition
(`Namespace.on_setup`, `Dispatcher.dispatch` lines 131-133 and 169-173) -/

/-- A handler takes the request and produces the response. -/
def HandlerFn (ρ σ : Type) : Type := ρ → σ

/-- A middleware already partially applied to its `self`: it takes the inner
handler and behaves as a handler (`partial(middleware, handler)`). -/
def MiddlewareFn (ρ σ : Type) : Type := HandlerFn ρ σ → HandlerFn ρ σ

/-- Lines 169-172: `for middleware in reversed(request.middlewares): handler =
partial(middleware, handler)`. -/
def wrapMiddlewares {ρ σ : Type} (mws : List (MiddlewareFn ρ σ))
    (base : HandlerFn ρ σ) : HandlerFn ρ σ :=
  mws.reverse.foldl (fun h m => m h) base

/-- Lines 131-133: `request.middlewares.extend(self._middlewares)` followed by
`request.middlewares.extend(namespace._middlewares)` for every traversed
namespace, outer to inner. -/
def accumulatedMiddlewares {μ : Type} (dispatcherMws : List μ)
    (namespaceMws : List (List μ)) : List μ :=
  dispatcherMws ++ namespaceMws.flatten

/-- `Namespace.on_setup`: the discovered middlewares of one scope are sorted
ascending by their declared `order` (priority). -/
def priorityLe {μ : Type} (a b : Nat × μ) : Prop := a.1 ≤ b.1

instance {μ : Type} : DecidableRel (priorityLe (μ := μ)) :=
  fun a b => Nat.decLe a.1 b.1

instance {μ : Type} : IsTotal (Nat × μ) priorityLe :=
  ⟨fun a b => Nat.le_total a.1 b.1⟩

instance {μ : Type} : IsTrans (Nat × μ) priorityLe :=
  ⟨fun _ _ _ h1 h2 => Nat.le_trans h1 h2⟩

def sortByPriority {μ : Type} (l : List (Nat × μ)) : List (Nat × μ) :=
  List.insertionSort priorityLe l

/-- The observable middleware of the spec's example: once the inner call
returns, append the middleware's own tag to the response's metadata list. -/
def tagMiddleware {ρ : Type} (tag : String) : MiddlewareFn ρ (List String) :=
  fun h r => h r ++ [tag]

/-- The tag list produced by dispatching through the full accumulated chain:
dispatcher-scope entries sorted by priority, then each traversed namespace's
entries sorted by priority (outer to inner), composed in reverse around a base
handler that returns a response with empty metadata. -/
def dispatchTags (dispatcherMws : List (Nat × String))
    (namespaceMws : List (List (Nat × String))) : List String :=
  wrapMiddlewares
    ((accumulatedMiddlewares (sortByPriority dispatcherMws)
        (namespaceMws.map sortByPriority)).map (fun p => tagMiddleware p.2))
    (fun _ => []) ()

theorem wrapMiddlewares_cons {ρ σ : Type} (m : MiddlewareFn ρ σ)
    (ms : List (MiddlewareFn ρ σ)) (base : HandlerFn ρ σ) :
    wrapMiddlewares (m :: ms) base = m (wrapMiddlewares ms base) := by
  unfold wrapMiddlewares
  rw [List.reverse_cons, List.foldl_append]
  rfl

theorem wrapMiddlewares_tags {ρ : Type} (tags : List String)
    (base : HandlerFn ρ (List String)) (r : ρ) :
    wrapMiddlewares (tags.map tagMiddleware) base r = base r ++ tags.reverse := by
  induction tags generalizing base with
  | nil => simp [wrapMiddlewares]
  | cons t ts ih =>
    rw [List.map_cons, wrapMiddlewares_cons]
    show wrapMiddlewares (ts.map tagMiddleware) base r ++ [t] = _
    rw [ih base, List.reverse_cons, List.append_assoc]

/-- C2: the accumulated middleware sequence is the dispatcher-scope entries
sorted ascending by priority followed by every traversed namespace's entries
sorted ascending by priority in outer-to-inner order; wrapping the handler by
iterating it in reverse makes the after-the-call metadata tags appear in
reverse accumulation order — innermost scope first and, within a scope,
highest priority first.  In particular namespace `Foo` (priorities 1, 2) under
app-level middleware (priorities 1, 2) yields the tag order
`[Foo.2, Foo.1, App.2, App.1]`. -/
theorem middleware_composition_order :
    (∀ (dispatcherMws : List (Nat × String))
        (namespaceMws : List (List (Nat × String))),
        dispatchTags dispatcherMws namespaceMws =
          ((accumulatedMiddlewares (sortByPriority dispatcherMws)
            (namespaceMws.map sortByPriority)).map Prod.snd).reverse)
    ∧ dispatchTags [(1, "App.1"), (2, "App.2")] [[(1, "Foo.1"), (2, "Foo.2")]] =
        ["Foo.2", "Foo.1", "App.2", "App.1"] := by
  constructor
  · intro dispatcherMws namespaceMws
    unfold dispatchTags
    have hmap : ∀ l : List (Nat × String),
        l.map (fun p => tagMiddleware (ρ := Unit) p.2) =
          (l.map Prod.snd).map tagMiddleware := by
      intro l
      rw [List.map_map]
      rfl
    rw [hmap, wrapMiddlewares_tags]
    rfl
  · rfl

/-! ### Handler discovery (`Namespace.iter_methods`, lines 90-106) -/

/-- The declared raisable error classes of a handler: the `raises` argument is
either a single `BaseError` subclass or a tuple of them. -/
inductive RaisesDecl where
  | single (c : ExcClass)
  | multi (cs : List ExcClass)
deriving DecidableEq, Repr

/-- The `rpc_handler_info` dict attached by the `@handler` decorator, in the
parts the modelled code reads. -/
structure HandlerInfo where
  shield : Bool
  raisesD : RaisesDecl
deriving DecidableEq, Repr

/-- A public attribute of a live `Namespace` object as `iter_methods` sees it:
a handler-tagged callable, a nested `Namespace` (with its `enabled` flag,
whether it is also a `Dispatcher`, and its own public attributes), or anything
else. -/
inductive NSAttr : Type where
  | handlerAttr (info : HandlerInfo) : NSAttr
  | namespaceAttr (enabled : Bool) (isDispatcher : Bool)
      (attrs : List (String × NSAttr)) : NSAttr
  | plainAttr : NSAttr

/-- One entry of the frozen routing table (namespace chain omitted: the claims
about it are settled through `accumulatedMiddlewares`). -/
structure MethodDefM where
  name : String
  info : HandlerInfo
deriving DecidableEq, Repr

/-- `Namespace.iter_methods`: handler-tagged attributes become leaves named
prefix + attribute name; an attribute is recursed into iff it is a
`Namespace`, not a `Dispatcher`, and enabled.  Note the recursion at
api.py:106 passes only the child's own name plus a dot
(`f"{name}."`) and discards the accumulated prefix — modelled here as
`n ++ "."`, not `pre ++ n ++ "."`. -/
def iterAttrs : List (String × NSAttr) → String → List MethodDefM
  | [], _ => []
  | (n, .handlerAttr i) :: rest, pre =>
      ⟨pre ++ n, i⟩ :: iterAttrs rest pre
  | (n, .namespaceAttr en disp sub) :: rest, pre =>
      (if !disp && en then iterAttrs sub (n ++ ".") else [])
        ++ iterAttrs rest pre
  | (_, .plainAttr) :: rest, pre => iterAttrs rest pre

/-- The contribution of a single public attribute to the routing table, with
the same prefix-discarding recursion as the source. -/
def attrMethods (pre : String) : String × NSAttr → List MethodDefM
  | (n, .handlerAttr i) => [⟨pre ++ n, i⟩]
  | (n, .namespaceAttr en disp sub) =>
      if !disp && en then iterAttrs sub (n ++ ".") else []
  | (_, .plainAttr) => []

theorem iterAttrs_eq_flatten (attrs : List (String × NSAttr)) (pre : String) :
    iterAttrs attrs pre = (attrs.map (attrMethods pre)).flatten := by
  induction attrs with
  | nil => simp [iterAttrs]
  | cons hd rest ih =>
    obtain ⟨n, a⟩ := hd
    cases a with
    | handlerAttr i => simp [iterAttrs, attrMethods, ih]
    | namespaceAttr en disp sub => simp [iterAttrs, attrMethods, ih]
    | plainAttr => simp [iterAttrs, attrMethods, ih]

/-- C8 (code bug): the claim says a recursed child extends the current prefix
by its name and a dot, so a handler `get_nothing` inside namespace `nested`
inside namespace `foo` would be registered as `foo.nested.get_nothing` — the
name the repository's own test dispatches.  The source
(`Namespace.iter_methods`, api.py:106) recurses with `f"{name}."` and
discards the accumulated prefix, so the faithful embedding registers the leaf
as `nested.get_nothing` instead; at depth 1 the claimed rule still holds, and
disabled or `Dispatcher`-typed children still contribute nothing. -/
theorem namespace_discovery_prefix_dropped :
    iterAttrs
        [("div", .handlerAttr ⟨true, .multi []⟩),
         ("foo", .namespaceAttr true false
            [("nested", .namespaceAttr true false
                [("get_nothing", .handlerAttr ⟨true, .multi []⟩)]),
             ("off", .namespaceAttr false false
                [("hidden", .handlerAttr ⟨true, .multi []⟩)]),
             ("v10", .namespaceAttr true true
                [("leak", .handlerAttr ⟨true, .multi []⟩)])])] "" =
      [⟨"div", ⟨true, .multi []⟩⟩, ⟨"nested.get_nothing", ⟨true, .multi []⟩⟩]
    ∧ (⟨"nested.get_nothing", ⟨true, .multi []⟩⟩ : MethodDefM) ≠
        ⟨"foo.nested.get_nothing", ⟨true, .multi []⟩⟩ := by
  constructor
  · simp [iterAttrs]
  · decide

/-! ### API version negotiation (`API.on_setup` / `API.dispatch`, lines 243-280) -/

/-- Static data of one registered `APIVersion` dispatcher: its declared
`(major, minor)` pair, `deprecated` flag, and a name standing for the object
identity of the component. -/
structure VImpl where
  name : String
  version : Nat × Nat
  deprecated : Bool
deriving DecidableEq, Repr

/-- `versions.sort(key=lambda v: v.version)`: lexicographic comparison of the
`(major, minor)` named tuples. -/
def vimplLe (v w : VImpl) : Prop :=
  v.version.1 < w.version.1 ∨
    (v.version.1 = w.version.1 ∧ v.version.2 ≤ w.version.2)

instance : DecidableRel vimplLe := fun v w => by
  unfold vimplLe
  infer_instance

instance : IsTotal VImpl vimplLe := ⟨fun v w => by unfold vimplLe; omega⟩

instance : IsTrans VImpl vimplLe := ⟨fun u v w h1 h2 => by
  unfold vimplLe at h1 h2 ⊢
  omega⟩

/-- `self._versions`: a dict from major to a dict from minor to the
`APIVersion` component, both with Python insertion-order semantics. -/
abbrev VersionTable := List (Nat × List (Nat × VImpl))

/-- Loop body of `API.on_setup` lines 248-250:
`majors = self._versions.setdefault(v.version.major, {})` followed by
`majors[v.version.minor] = v`. -/
def stepVersion (t : VersionTable) (v : VImpl) : VersionTable :=
  match alistFind? t v.version.1 with
  | none => t ++ [(v.version.1, [(v.version.2, v)])]
  | some g => alistSet t v.version.1 (dictSet g v.version.2 v)

/-- `API.on_setup`: sort the registered `APIVersion` components by version,
then populate the nested dicts in that order. -/
def buildVersions (vs : List VImpl) : VersionTable :=
  (List.insertionSort vimplLe vs).foldl stepVersion []

/-- The `(minor, component)` items a major's dict ends up holding, in
insertion order, when the components are processed in list order. -/
def minorsOf (xs : List VImpl) (maj : Nat) : List (Nat × VImpl) :=
  (xs.filter (fun v => v.version.1 == maj)).map (fun v => (v.version.2, v))

/-- All components stored in the table, in iteration order of the nested
dicts. -/
def tableImpls (t : VersionTable) : List VImpl :=
  (t.map (fun g => g.2.map Prod.snd)).flatten

theorem minorsOf_append (xs ys : List VImpl) (maj : Nat) :
    minorsOf (xs ++ ys) maj = minorsOf xs maj ++ minorsOf ys maj := by
  simp [minorsOf, List.filter_append]

theorem stepVersion_of_none (t : VersionTable) (v : VImpl)
    (h : alistFind? t v.version.1 = none) :
    stepVersion t v = t ++ [(v.version.1, [(v.version.2, v)])] := by
  unfold stepVersion
  rw [h]

theorem stepVersion_of_some (t : VersionTable) (v : VImpl) (g : List (Nat × VImpl))
    (h : alistFind? t v.version.1 = some g) :
    stepVersion t v = alistSet t v.version.1 (dictSet g v.version.2 v) := by
  unfold stepVersion
  rw [h]

theorem minor_not_mem_minorsOf (ys : List VImpl) (x : VImpl)
    (hnot : x.version ∉ ys.map VImpl.version) (maj : Nat)
    (hmaj : x.version.1 = maj) :
    x.version.2 ∉ (minorsOf ys maj).map Prod.fst := by
  intro hmem
  simp only [minorsOf, List.map_map, List.mem_map, Function.comp] at hmem
  obtain ⟨v, hv, hv2⟩ := hmem
  rw [List.mem_filter] at hv
  obtain ⟨hvmem, hvmaj⟩ := hv
  apply hnot
  rw [List.mem_map]
  refine ⟨v, hvmem, ?_⟩
  have h1 : v.version.1 = x.version.1 := by
    rw [hmaj]
    simpa using hvmaj
  exact Prod.ext h1 hv2

/-- Characterization of the nested-dict lookup after the `on_setup` fold: a
major maps to exactly the `(minor, component)` pairs of the processed
components with that major, in processing order. -/
theorem foldl_step_find (xs : List VImpl)
    (hd : (xs.map VImpl.version).Nodup) (maj : Nat) :
    alistFind? (xs.foldl stepVersion []) maj =
      if minorsOf xs maj = [] then none else some (minorsOf xs maj) := by
  induction xs using List.reverseRecOn with
  | nil => simp [alistFind?, minorsOf]
  | append_singleton ys x ih =>
    have hd' : (ys.map VImpl.version).Nodup := by
      rw [List.map_append, List.nodup_append] at hd
      exact hd.1
    have hnot : x.version ∉ ys.map VImpl.version := by
      rw [List.map_append, List.nodup_append] at hd
      intro hmem
      exact hd.2.2 hmem (by simp)
    rw [List.foldl_append, List.foldl_cons, List.foldl_nil]
    rw [minorsOf_append]
    by_cases hmaj : x.version.1 = maj
    · subst hmaj
      have hsingle : minorsOf [x] x.version.1 = [(x.version.2, x)] := by
        simp [minorsOf]
      rw [hsingle]
      cases hfind : alistFind? (ys.foldl stepVersion []) x.version.1 with
      | none =>
        have hempty : minorsOf ys x.version.1 = [] := by
          rw [ih hd', ite_eq_iff] at hfind
          rcases hfind with ⟨h, _⟩ | ⟨_, h⟩
          · exact h
          · cases h
        rw [hempty]
        rw [stepVersion_of_none _ _ hfind]
        rw [alistFind?_append, hfind]
        simp [alistFind?]
      | some g =>
        have hne : ¬ minorsOf ys x.version.1 = [] := by
          intro hempty
          rw [ih hd', if_pos hempty] at hfind
          cases hfind
        have hg : g = minorsOf ys x.version.1 := by
          rw [ih hd', if_neg hne] at hfind
          injection hfind with hfind
          exact hfind.symm
        rw [stepVersion_of_some _ _ _ hfind]
        have hfresh : x.version.2 ∉ g.map Prod.fst := by
          rw [hg]
          exact minor_not_mem_minorsOf ys x hnot x.version.1 rfl
        rw [dictSet_of_not_mem g x.version.2 x hfresh]
        rw [alistFind?_set_self _ _ _ (by rw [hfind]; rfl)]
        rw [if_neg (by simp), hg]
    · have hsingle : minorsOf [x] maj = [] := by
        simp [minorsOf, hmaj]
      rw [hsingle, List.append_nil]
      cases hfind : alistFind? (ys.foldl stepVersion []) x.version.1 with
      | none =>
        rw [stepVersion_of_none _ _ hfind]
        rw [alistFind?_append, ih hd']
        by_cases hempty : minorsOf ys maj = []
        · simp [hempty, alistFind?, hmaj]
        · simp [hempty]
      | some g =>
        rw [stepVersion_of_some _ _ _ hfind]
        rw [alistFind?_set_ne _ _ _ _ hmaj, ih hd']

/-- After the fold, the outer dict's keys are strictly increasing provided the
components were processed in sorted order, and every key is the major of some
processed component. -/
theorem foldl_step_keys (xs : List VImpl) (hs : List.Sorted vimplLe xs) :
    List.Pairwise (fun a b => a < b) ((xs.foldl stepVersion []).map Prod.fst)
    ∧ (∀ k ∈ (xs.foldl stepVersion []).map Prod.fst,
        ∃ v ∈ xs, v.version.1 = k) := by
  induction xs using List.reverseRecOn with
  | nil => simp
  | append_singleton ys x ih =>
    have hs2 : List.Pairwise vimplLe (ys ++ [x]) := hs
    rw [List.pairwise_append] at hs2
    have hs' : List.Sorted vimplLe ys := hs2.1
    have hbound : ∀ v ∈ ys, vimplLe v x := by
      intro v hv
      exact hs2.2.2 v hv x (by simp)
    obtain ⟨ihp, ihk⟩ := ih hs'
    rw [List.foldl_append, List.foldl_cons, List.foldl_nil]
    cases hfind : alistFind? (ys.foldl stepVersion []) x.version.1 with
    | none =>
      rw [stepVersion_of_none _ _ hfind]
      constructor
      · rw [List.map_append, List.pairwise_append]
        refine ⟨ihp, by simp, ?_⟩
        intro a ha b hb
        simp at hb
        subst hb
        obtain ⟨v, hv, hvk⟩ := ihk a ha
        have hle : vimplLe v x := hbound v hv
        have hne : a ≠ x.version.1 := by
          intro hc
          subst hc
          rw [alistFind?_eq_none_iff] at hfind
          exact hfind ha
        unfold vimplLe at hle
        omega
      · intro k hk
        rw [List.map_append] at hk
        rcases List.mem_append.mp hk with hk | hk
        · obtain ⟨v, hv, hvk⟩ := ihk k hk
          exact ⟨v, List.mem_append_left _ hv, hvk⟩
        · simp at hk
          exact ⟨x, List.mem_append_right _ (by simp), hk.symm⟩
    | some g =>
      rw [stepVersion_of_some _ _ _ hfind, alistSet_map_fst]
      refine ⟨ihp, ?_⟩
      intro k hk
      obtain ⟨v, hv, hvk⟩ := ihk k hk
      exact ⟨v, List.mem_append_left _ hv, hvk⟩

/-- After the `on_setup` fold over a sorted, duplicate-free component list,
iterating the nested dicts yields exactly the components in processed order. -/
theorem foldl_step_entries (xs : List VImpl) (hs : List.Sorted vimplLe xs)
    (hd : (xs.map VImpl.version).Nodup) :
    tableImpls (xs.foldl stepVersion []) = xs := by
  induction xs using List.reverseRecOn with
  | nil => simp [tableImpls]
  | append_singleton ys x ih =>
    have hs2 : List.Pairwise vimplLe (ys ++ [x]) := hs
    rw [List.pairwise_append] at hs2
    have hs' : List.Sorted vimplLe ys := hs2.1
    have hbound : ∀ v ∈ ys, vimplLe v x := by
      intro v hv
      exact hs2.2.2 v hv x (by simp)
    have hd' : (ys.map VImpl.version).Nodup := by
      rw [List.map_append, List.nodup_append] at hd
      exact hd.1
    have hnot : x.version ∉ ys.map VImpl.version := by
      rw [List.map_append, List.nodup_append] at hd
      intro hmem
      exact hd.2.2 hmem (by simp)
    rw [List.foldl_append, List.foldl_cons, List.foldl_nil]
    cases hfind : alistFind? (ys.foldl stepVersion []) x.version.1 with
    | none =>
      rw [stepVersion_of_none _ _ hfind]
      rw [tableImpls, List.map_append, List.flatten_append]
      rw [← tableImpls, ih hs' hd']
      simp [tableImpls]
    | some g =>
      rw [stepVersion_of_some _ _ _ hfind]
      have hg : g = minorsOf ys x.version.1 := by
        rw [foldl_step_find ys hd' x.version.1] at hfind
        by_cases hempty : minorsOf ys x.version.1 = []
        · rw [if_pos hempty] at hfind
          cases hfind
        · rw [if_neg hempty] at hfind
          injection hfind with hfind
          exact hfind.symm
      have hfresh : x.version.2 ∉ g.map Prod.fst := by
        rw [hg]
        exact minor_not_mem_minorsOf ys x hnot x.version.1 rfl
      rw [dictSet_of_not_mem g x.version.2 x hfresh]
      obtain ⟨t₁, t₂, hsplit, hnotmem⟩ :=
        alistFind?_eq_some_split (ys.foldl stepVersion []) x.version.1 g hfind
      have ht₂ : t₂ = [] := by
        obtain ⟨hpair, hkeys⟩ := foldl_step_keys ys hs'
        cases t₂ with
        | nil => rfl
        | cons p rest =>
          exfalso
          rw [hsplit, List.map_append, List.pairwise_append] at hpair
          have hgt : x.version.1 < p.1 := by
            have hp := hpair.2.1
            rw [List.map_cons, List.map_cons, List.pairwise_cons] at hp
            exact hp.1 p.1 (by simp)
          have hmemk : p.1 ∈ ((ys.foldl stepVersion []).map Prod.fst) := by
            rw [hsplit, List.map_append]
            refine List.mem_append_right _ ?_
            simp
          obtain ⟨v, hv, hvk⟩ := hkeys p.1 hmemk
          have hle : vimplLe v x := hbound v hv
          unfold vimplLe at hle
          omega
      subst ht₂
      rw [hsplit, alistSet_append_of_not_mem _ _ _ _ hnotmem]
      have hsetcons : alistSet [(x.version.1, g)] x.version.1
          (g ++ [(x.version.2, x)]) = [(x.version.1, g ++ [(x.version.2, x)])] := by
        simp [alistSet]
      rw [hsetcons]
      have hys : tableImpls (t₁ ++ [(x.version.1, g)]) = ys := by
        rw [← hsplit]
        exact ih hs' hd'
      rw [tableImpls, List.map_append, List.flatten_append] at hys ⊢
      simp only [List.map_cons, List.map_nil, List.flatten_cons, List.flatten_nil,
        List.map_append, List.append_nil] at hys ⊢
      rw [← List.append_assoc, hys]

/-- The outcome of `API.dispatch` as far as version negotiation goes. -/
inductive APIOutcome where
  | unversioned
  | unsupported (version : Nat × Nat)
  | delegated (impl : VImpl) (metaVersion : Nat × Nat)
deriving DecidableEq, Repr

/-- Version resolution of `API.dispatch` (lines 256-280):
`request.meta.setdefault("version", None)`; dispatch on the API itself when
the value is absent or null; look up the requested major (`KeyError` raises
unsupported-version with the requested pair); select the exact minor when
present; otherwise scan the major's dict in iteration order for the first
minor strictly greater than the requested one, and fail unsupported-version
with the requested pair when none exists.  On success the served
`context.version` is written back into `request.meta["version"]` before
delegating — modelled by the second field of `delegated`. -/
def resolveVersion (t : VersionTable)
    (metaVersion : Option (Option (Nat × Nat))) : APIOutcome :=
  match metaVersion.getD none with
  | none => .unversioned
  | some rv =>
    match alistFind? t rv.1 with
    | none => .unsupported rv
    | some g =>
      match alistFind? g rv.2 with
      | some context => .delegated context context.version
      | none =>
        match g.find? (fun p => rv.2 < p.1) with
        | some p => .delegated p.2 p.2.version
        | none => .unsupported rv

/-- In a list whose keys are nondecreasing and injective, `find?` of any
predicate returns the member minimizing the key among satisfiers. -/
theorem find?_eq_of_sorted_min {α : Type} (f : α → Nat) (p : α → Bool) :
    ∀ (l : List α) (u : α),
      l.Pairwise (fun a b => f a ≤ f b) →
      (∀ a ∈ l, ∀ b ∈ l, f a = f b → a = b) →
      u ∈ l → p u = true →
      (∀ w ∈ l, p w = true → f u ≤ f w) →
      l.find? p = some u := by
  intro l
  induction l with
  | nil =>
    intro u _ _ hu
    cases hu
  | cons h t ih =>
    intro u hsort hinj hu hpu hmin
    rw [List.pairwise_cons] at hsort
    obtain ⟨hle, hsort'⟩ := hsort
    by_cases hp : p h = true
    · rw [List.find?_cons_of_pos _ hp]
      rcases List.mem_cons.mp hu with heq | hu'
      · rw [heq]
      · have h1 : f u ≤ f h := hmin h (List.mem_cons_self h t) hp
        have h2 : f h ≤ f u := hle u hu'
        have heq : h = u := hinj h (List.mem_cons_self h t) u
          (List.mem_cons_of_mem _ hu') (Nat.le_antisymm h2 h1)
        rw [heq]
    · rw [List.find?_cons_of_neg _ hp]
      have hu' : u ∈ t := by
        rcases List.mem_cons.mp hu with heq | hu'
        · rw [heq] at hpu
          exact absurd hpu hp
        · exact hu'
      refine ih u hsort' ?_ hu' hpu ?_
      · intro a ha b hb
        exact hinj a (List.mem_cons_of_mem _ ha) b (List.mem_cons_of_mem _ hb)
      · intro w hw
        exact hmin w (List.mem_cons_of_mem _ hw)

/-- Exact-minor dict lookup on a minors list, reduced to `find?` on the
underlying components. -/
theorem alistFind?_pairing {α : Type} (key : α → Nat) (l : List α) (k : Nat) :
    alistFind? (l.map (fun v => (key v, v))) k = l.find? (fun v => key v == k) := by
  induction l with
  | nil => rfl
  | cons h t ih =>
    by_cases hk : key h = k
    · rw [List.map_cons, alistFind?, if_pos hk,
        List.find?_cons_of_pos _ (by simpa using hk)]
    · rw [List.map_cons, alistFind?, if_neg hk,
        List.find?_cons_of_neg _ (by simpa using hk), ih]

theorem resolveVersion_no_major (t : VersionTable) (rv : Nat × Nat)
    (h : alistFind? t rv.1 = none) :
    resolveVersion t (some (some rv)) = .unsupported rv := by
  unfold resolveVersion
  simp only [Option.getD_some]
  rw [h]

theorem resolveVersion_exact (t : VersionTable) (rv : Nat × Nat)
    (g : List (Nat × VImpl)) (context : VImpl)
    (hg : alistFind? t rv.1 = some g) (hc : alistFind? g rv.2 = some context) :
    resolveVersion t (some (some rv)) = .delegated context context.version := by
  unfold resolveVersion
  simp only [Option.getD_some, hg, hc]

theorem resolveVersion_upgrade (t : VersionTable) (rv : Nat × Nat)
    (g : List (Nat × VImpl)) (p : Nat × VImpl)
    (hg : alistFind? t rv.1 = some g) (hc : alistFind? g rv.2 = none)
    (hf : g.find? (fun q => rv.2 < q.1) = some p) :
    resolveVersion t (some (some rv)) = .delegated p.2 p.2.version := by
  unfold resolveVersion
  simp only [Option.getD_some, hg, hc, hf]

theorem resolveVersion_no_minor (t : VersionTable) (rv : Nat × Nat)
    (g : List (Nat × VImpl))
    (hg : alistFind? t rv.1 = some g) (hc : alistFind? g rv.2 = none)
    (hf : g.find? (fun q => rv.2 < q.1) = none) :
    resolveVersion t (some (some rv)) = .unsupported rv := by
  unfold resolveVersion
  simp only [Option.getD_some, hg, hc, hf]

theorem mem_filter_major {xs : List VImpl} {v : VImpl} {maj : Nat}
    (h : v ∈ xs.filter (fun w => w.version.1 == maj)) :
    v ∈ xs ∧ v.version.1 = maj := by
  rw [List.mem_filter] at h
  exact ⟨h.1, by simpa using h.2⟩

theorem filter_major_pairwise (xs : List VImpl) (hs : List.Sorted vimplLe xs)
    (maj : Nat) :
    (xs.filter (fun w => w.version.1 == maj)).Pairwise
      (fun a b => a.version.2 ≤ b.version.2) := by
  have h1 : (xs.filter (fun w => w.version.1 == maj)).Pairwise vimplLe :=
    List.Pairwise.filter _ hs
  refine List.Pairwise.imp_of_mem ?_ h1
  intro a b ha hb hab
  have ha' := (mem_filter_major ha).2
  have hb' := (mem_filter_major hb).2
  unfold vimplLe at hab
  omega

theorem filter_major_injOn (xs : List VImpl)
    (hd : (xs.map VImpl.version).Nodup) (maj : Nat) :
    ∀ a ∈ xs.filter (fun w => w.version.1 == maj),
      ∀ b ∈ xs.filter (fun w => w.version.1 == maj),
        a.version.2 = b.version.2 → a = b := by
  intro a ha b hb h2
  obtain ⟨ha1, ha2⟩ := mem_filter_major ha
  obtain ⟨hb1, hb2⟩ := mem_filter_major hb
  refine List.inj_on_of_nodup_map hd ha1 hb1 ?_
  exact Prod.ext (ha2.trans hb2.symm) h2

/-- The table lookup that `API.dispatch` performs, expressed over the original
component list. -/
theorem buildVersions_find (vs : List VImpl)
    (hd : (vs.map VImpl.version).Nodup) (maj : Nat) :
    alistFind? (buildVersions vs) maj =
      if minorsOf (List.insertionSort vimplLe vs) maj = [] then none
      else some (minorsOf (List.insertionSort vimplLe vs) maj) := by
  have hperm : (List.insertionSort vimplLe vs).Perm vs :=
    List.perm_insertionSort vimplLe vs
  have hd' : ((List.insertionSort vimplLe vs).map VImpl.version).Nodup :=
    ((hperm.map VImpl.version).nodup_iff).mpr hd
  exact foldl_step_find (List.insertionSort vimplLe vs) hd' maj

/-- C1: API version negotiation.  With a duplicate-free set of registered
versions: a request without a version (or with a null one) dispatches on the
API itself; a requested major with no registered group fails
unsupported-version with the requested pair; an exact minor match is served
as such; otherwise the smallest registered minor strictly greater than the
requested one is served; if none exists the dispatch fails
unsupported-version with the full requested pair.  On success the served
version — possibly different from the requested one — is the pair written
back into `request.meta["version"]` (the second field of `delegated`) before
delegation. -/
theorem api_version_negotiation (vs : List VImpl)
    (hd : (vs.map VImpl.version).Nodup) :
    (∀ mv : Option (Option (Nat × Nat)), mv = none ∨ mv = some none →
        resolveVersion (buildVersions vs) mv = .unversioned)
    ∧ (∀ rv : Nat × Nat, (∀ v ∈ vs, v.version.1 ≠ rv.1) →
        resolveVersion (buildVersions vs) (some (some rv)) = .unsupported rv)
    ∧ (∀ u ∈ vs,
        resolveVersion (buildVersions vs) (some (some u.version)) =
          .delegated u u.version)
    ∧ (∀ (rv : Nat × Nat) (u : VImpl), u ∈ vs →
        (∀ w ∈ vs, w.version ≠ rv) →
        u.version.1 = rv.1 → rv.2 < u.version.2 →
        (∀ w ∈ vs, w.version.1 = rv.1 → rv.2 < w.version.2 →
          u.version.2 ≤ w.version.2) →
        resolveVersion (buildVersions vs) (some (some rv)) =
          .delegated u u.version)
    ∧ (∀ rv : Nat × Nat, (∃ w ∈ vs, w.version.1 = rv.1) →
        (∀ w ∈ vs, w.version.1 = rv.1 → w.version.2 < rv.2) →
        resolveVersion (buildVersions vs) (some (some rv)) = .unsupported rv) := by
  have hperm : (List.insertionSort vimplLe vs).Perm vs :=
    List.perm_insertionSort vimplLe vs
  have hsorted : List.Sorted vimplLe (List.insertionSort vimplLe vs) :=
    List.sorted_insertionSort vimplLe vs
  have hd' : ((List.insertionSort vimplLe vs).map VImpl.version).Nodup :=
    ((hperm.map VImpl.version).nodup_iff).mpr hd
  refine ⟨?_, ?_, ?_, ?_, ?_⟩
  · rintro mv (rfl | rfl) <;> rfl
  · intro rv hno
    have hempty : minorsOf (List.insertionSort vimplLe vs) rv.1 = [] := by
      rw [minorsOf, List.map_eq_nil_iff, List.filter_eq_nil_iff]
      intro v hv
      simp only [beq_iff_eq]
      exact hno v (hperm.subset hv)
    exact resolveVersion_no_major _ rv
      (by rw [buildVersions_find vs hd rv.1, if_pos hempty])
  · intro u hu
    have hu' : u ∈ List.insertionSort vimplLe vs := hperm.mem_iff.mpr hu
    have huf : u ∈ (List.insertionSort vimplLe vs).filter
        (fun w => w.version.1 == u.version.1) := by
      rw [List.mem_filter]
      exact ⟨hu', by simp⟩
    have hne : ¬ minorsOf (List.insertionSort vimplLe vs) u.version.1 = [] := by
      rw [minorsOf, List.map_eq_nil_iff, List.filter_eq_nil_iff]
      push_neg
      exact ⟨u, hu', by simp⟩
    have hfound : alistFind? (minorsOf (List.insertionSort vimplLe vs) u.version.1)
        u.version.2 = some u := by
      rw [minorsOf, alistFind?_pairing (fun v : VImpl => v.version.2)]
      refine find?_eq_of_sorted_min (fun v : VImpl => v.version.2) _ _ u
        (filter_major_pairwise _ hsorted _) (filter_major_injOn _ hd' _)
        huf (by simp) ?_
      intro w hw hpw
      simp only [beq_iff_eq] at hpw
      show u.version.2 ≤ w.version.2
      omega
    exact resolveVersion_exact _ u.version _ u
      (by rw [buildVersions_find vs hd u.version.1, if_neg hne]) hfound
  · intro rv u hu hnoexact humaj humin hmin
    have hu' : u ∈ List.insertionSort vimplLe vs := hperm.mem_iff.mpr hu
    have huf : u ∈ (List.insertionSort vimplLe vs).filter
        (fun w => w.version.1 == rv.1) := by
      rw [List.mem_filter]
      exact ⟨hu', by simp [humaj]⟩
    have hne : ¬ minorsOf (List.insertionSort vimplLe vs) rv.1 = [] := by
      rw [minorsOf, List.map_eq_nil_iff, List.filter_eq_nil_iff]
      push_neg
      exact ⟨u, hu', by simp [humaj]⟩
    have hnoex : alistFind? (minorsOf (List.insertionSort vimplLe vs) rv.1)
        rv.2 = none := by
      rw [minorsOf, alistFind?_pairing (fun v : VImpl => v.version.2)]
      rw [List.find?_eq_none]
      intro w hw
      obtain ⟨hw1, hw2⟩ := mem_filter_major hw
      simp only [beq_iff_eq]
      intro hc
      exact hnoexact w (hperm.subset hw1) (Prod.ext hw2 hc)
    have hupg : (minorsOf (List.insertionSort vimplLe vs) rv.1).find?
        (fun q => rv.2 < q.1) = some (u.version.2, u) := by
      rw [minorsOf, List.find?_map]
      have hfind : ((List.insertionSort vimplLe vs).filter
          (fun w => w.version.1 == rv.1)).find?
            (fun v => decide (rv.2 < v.version.2)) = some u := by
        refine find?_eq_of_sorted_min (fun v : VImpl => v.version.2) _ _ u
          (filter_major_pairwise _ hsorted _) (filter_major_injOn _ hd' _)
          huf (by simpa using humin) ?_
        intro w hw hpw
        obtain ⟨hw1, hw2⟩ := mem_filter_major hw
        simp only [decide_eq_true_eq] at hpw
        exact hmin w (hperm.subset hw1) hw2 hpw
      have hcomp : (((List.insertionSort vimplLe vs).filter
          (fun w => w.version.1 == rv.1)).find?
            ((fun q : Nat × VImpl => decide (rv.2 < q.1)) ∘
              (fun v => (v.version.2, v)))) = some u := hfind
      rw [hcomp]
      rfl
    exact resolveVersion_upgrade _ rv _ (u.version.2, u)
      (by rw [buildVersions_find vs hd rv.1, if_neg hne]) hnoex hupg
  · intro rv hex hall
    obtain ⟨w0, hw0, hw0maj⟩ := hex
    have hw0' : w0 ∈ List.insertionSort vimplLe vs := hperm.mem_iff.mpr hw0
    have hne : ¬ minorsOf (List.insertionSort vimplLe vs) rv.1 = [] := by
      rw [minorsOf, List.map_eq_nil_iff, List.filter_eq_nil_iff]
      push_neg
      exact ⟨w0, hw0', by simp [hw0maj]⟩
    have hnoex : alistFind? (minorsOf (List.insertionSort vimplLe vs) rv.1)
        rv.2 = none := by
      rw [minorsOf, alistFind?_pairing (fun v : VImpl => v.version.2)]
      rw [List.find?_eq_none]
      intro w hw
      obtain ⟨hw1, hw2⟩ := mem_filter_major hw
      have := hall w (hperm.subset hw1) hw2
      simp only [beq_iff_eq]
      omega
    have hnogt : (minorsOf (List.insertionSort vimplLe vs) rv.1).find?
        (fun q => rv.2 < q.1) = none := by
      rw [List.find?_eq_none]
      intro q hq
      simp only [minorsOf, List.mem_map] at hq
      obtain ⟨w, hw, hweq⟩ := hq
      obtain ⟨hw1, hw2⟩ := mem_filter_major hw
      have := hall w (hperm.subset hw1) hw2
      subst hweq
      simp only [decide_eq_true_eq]
      omega
    exact resolveVersion_no_minor _ rv _
      (by rw [buildVersions_find vs hd rv.1, if_neg hne]) hnoex hnogt

/-- Witness for C1 on the spec's example registry {(1,0) deprecated, (2,1)}:
no version dispatches unversioned; (1,0) serves (1,0); (2,0) serves (2,1) and
the written-back meta version is (2,1); (3,0) and (2,2) fail unsupported with
the requested pair. -/
theorem api_version_negotiation_witness :
    resolveVersion (buildVersions
        [⟨"v10", (1, 0), true⟩, ⟨"v21", (2, 1), false⟩]) none = .unversioned
    ∧ resolveVersion (buildVersions
        [⟨"v10", (1, 0), true⟩, ⟨"v21", (2, 1), false⟩]) (some (some (1, 0))) =
      .delegated ⟨"v10", (1, 0), true⟩ (1, 0)
    ∧ resolveVersion (buildVersions
        [⟨"v10", (1, 0), true⟩, ⟨"v21", (2, 1), false⟩]) (some (some (2, 0))) =
      .delegated ⟨"v21", (2, 1), false⟩ (2, 1)
    ∧ resolveVersion (buildVersions
        [⟨"v10", (1, 0), true⟩, ⟨"v21", (2, 1), false⟩]) (some (some (3, 0))) =
      .unsupported (3, 0)
    ∧ resolveVersion (buildVersions
        [⟨"v10", (1, 0), true⟩, ⟨"v21", (2, 1), false⟩]) (some (some (2, 2))) =
      .unsupported (2, 2) := by
  have h := api_version_negotiation
    [⟨"v10", (1, 0), true⟩, ⟨"v21", (2, 1), false⟩] (by decide)
  refine ⟨h.1 none (Or.inl rfl), ?_, ?_, ?_, ?_⟩
  · exact h.2.2.1 ⟨"v10", (1, 0), true⟩ (by decide)
  · exact h.2.2.2.1 (2, 0) ⟨"v21", (2, 1), false⟩ (by decide) (by decide)
      (by decide) (by decide) (by decide)
  · exact h.2.1 (3, 0) (by decide)
  · exact h.2.2.2.2 (2, 2) (by decide) (by decide)

/-! ### Builtin listing handlers
(`Dispatcher.list_methods` lines 178-196, `API.list_versions` lines 282-295) -/

/-- `list_methods` turns the declared raisable classes into plain codes:
`[e.code for e in raises]` for a tuple, `[raises.code]` for a single class. -/
def raisesCodes : RaisesDecl → List String
  | .multi cs => cs.map (fun c => c.code)
  | .single c => [c.code]

/-- One entry of the `list_methods` result, in the parts the claims are
about (the schema dump and docstring belong to external collaborators). -/
structure MethodEntry where
  name : String
  shield : Bool
  raisesList : List String
deriving DecidableEq, Repr

def methodEntry (md : MethodDefM) : MethodEntry :=
  ⟨md.name, md.info.shield, raisesCodes md.info.raisesD⟩

/-- `result.sort(key=lambda e: e["name"])`. -/
def entryNameLe (a b : MethodEntry) : Prop := a.name ≤ b.name

instance : DecidableRel entryNameLe :=
  fun a b => inferInstanceAs (Decidable (a.name ≤ b.name))

instance : IsTotal MethodEntry entryNameLe := ⟨fun a b => le_total a.name b.name⟩

instance : IsTrans MethodEntry entryNameLe :=
  ⟨fun _ _ _ h1 h2 => le_trans h1 h2⟩

/-- `Dispatcher.list_methods`: one entry per routing-table value, sorted by
name. -/
def listMethods (mds : List MethodDefM) : List MethodEntry :=
  List.insertionSort entryNameLe (mds.map methodEntry)

/-- `API.list_versions`: iterate the nested version dicts in insertion order,
reporting each version pair and its deprecation flag. -/
def listVersions (t : VersionTable) : List ((Nat × Nat) × Bool) :=
  (t.map (fun g => g.2.map (fun p => (p.2.version, p.2.deprecated)))).flatten

theorem listVersions_eq_map (t : VersionTable) :
    listVersions t = (tableImpls t).map (fun v => (v.version, v.deprecated)) := by
  induction t with
  | nil => rfl
  | cons g rest ih =>
    rw [listVersions, tableImpls] at ih ⊢
    simp only [List.map_cons, List.flatten_cons, List.map_append, List.map_map]
    rw [ih]
    rfl

/-- C9: `list_methods` output is sorted by method name, is exactly one entry
per routing-table method, and each entry's raises field holds the plain
string codes of the declared error variants (not the variant objects);
`list_versions` enumerates every registered version in the registration order
of the version table (ascending, as `on_setup` sorts before inserting) with
its deprecation flag. -/
theorem builtin_listing_handlers :
    (∀ mds : List MethodDefM,
        List.Sorted entryNameLe (listMethods mds)
        ∧ (listMethods mds).Perm (mds.map methodEntry)
        ∧ ∀ e ∈ listMethods mds, ∃ md ∈ mds,
            e.name = md.name ∧ e.shield = md.info.shield
            ∧ e.raisesList = raisesCodes md.info.raisesD)
    ∧ (∀ c : ExcClass, raisesCodes (.single c) = [c.code])
    ∧ (∀ cs : List ExcClass,
        raisesCodes (.multi cs) = cs.map (fun c => c.code))
    ∧ (∀ vs : List VImpl, (vs.map VImpl.version).Nodup →
        listVersions (buildVersions vs) =
          (List.insertionSort vimplLe vs).map
            (fun v => (v.version, v.deprecated))) := by
  refine ⟨?_, fun _ => rfl, fun _ => rfl, ?_⟩
  · intro mds
    refine ⟨List.sorted_insertionSort entryNameLe (mds.map methodEntry),
      List.perm_insertionSort entryNameLe (mds.map methodEntry), ?_⟩
    intro e he
    have hmem : e ∈ mds.map methodEntry :=
      (List.perm_insertionSort entryNameLe (mds.map methodEntry)).subset he
    rw [List.mem_map] at hmem
    obtain ⟨md, hmd, hemd⟩ := hmem
    exact ⟨md, hmd, by rw [← hemd]; rfl, by rw [← hemd]; rfl, by rw [← hemd]; rfl⟩
  · intro vs hd
    have hperm : (List.insertionSort vimplLe vs).Perm vs :=
      List.perm_insertionSort vimplLe vs
    have hd' : ((List.insertionSort vimplLe vs).map VImpl.version).Nodup :=
      ((hperm.map VImpl.version).nodup_iff).mpr hd
    rw [listVersions_eq_map]
    rw [show buildVersions vs =
      (List.insertionSort vimplLe vs).foldl stepVersion [] from rfl]
    rw [foldl_step_entries (List.insertionSort vimplLe vs)
      (List.sorted_insertionSort vimplLe vs) hd']

/-- Witness for C9: a concrete routing table lists sorted by name with plain
codes in the raises field, and the example version registry lists both
versions in table order with their deprecation flags. -/
theorem builtin_listing_handlers_witness :
    List.Sorted entryNameLe (listMethods
      [⟨"foo.sum", ⟨true, .multi []⟩⟩,
       ⟨"foo.div", ⟨true, .single ⟨"error.div_zero", some "Division by zero"⟩⟩⟩])
    ∧ listMethods
        [⟨"foo.sum", ⟨true, .multi []⟩⟩,
         ⟨"foo.div", ⟨true, .single ⟨"error.div_zero", some "Division by zero"⟩⟩⟩] =
      [⟨"foo.div", true, ["error.div_zero"]⟩, ⟨"foo.sum", true, []⟩]
    ∧ listVersions (buildVersions
        [⟨"v21", (2, 1), false⟩, ⟨"v10", (1, 0), true⟩]) =
      [((1, 0), true), ((2, 1), false)] := by
  refine ⟨?_, ?_, ?_⟩
  · exact (builtin_listing_handlers.1
      [⟨"foo.sum", ⟨true, .multi []⟩⟩,
       ⟨"foo.div", ⟨true, .single ⟨"error.div_zero", some "Division by zero"⟩⟩⟩]).1
  · simp only [listMethods, List.map_cons, List.map_nil, methodEntry, raisesCodes]
    simp [List.insertionSort, List.orderedInsert, entryNameLe,
      String.le_iff_toList_le]
    decide
  · rw [builtin_listing_handlers.2.2.2
      [⟨"v21", (2, 1), false⟩, ⟨"v10", (1, 0), true⟩] (by decide)]
    decide

/-! ### Wire transport
(`HTTPRoutes.handle_json` / `handle_raw`, `myack/rpc/transport.py` lines 60-109) -/

/-- The request carrier in the parts the transport reads back after a
successful `Request.load`. -/
structure RequestM where
  id : Int
  method : String
deriving DecidableEq, Repr

/-- The `Response` carrier (`myack/rpc/response.py`): `id` is kept as a raw
value because the parse-failure path reuses whatever integer-like value the
raw payload carried. -/
structure ResponseM where
  id : Option Value
  meta : List (String × Value)
  result : Option Value
  error : Option ExcInstance
  warnings : List ExcInstance

/-- Python `isinstance(x, int)`: also true of booleans, `bool` being a
subclass of `int`. -/
def pyIsInt : Value → Bool
  | .int _ => true
  | .bool _ => true
  | _ => false

/-- Id recovery on a parse/shape failure (lines 94-99): `raw_request["id"] if
isinstance(raw_request, dict) and isinstance(raw_request.get("id"), int) else
None`. -/
def rawRequestId (raw : Value) : Option Value :=
  match raw with
  | .obj kvs =>
    match alistFind? kvs "id" with
    | some v => if pyIsInt v then some v else none
    | none => none
  | _ => none

/-- How `await self.api.dispatch(request)` ends for one item (cancellation is
re-raised by the transport and aborts the whole exchange; it never produces a
response, so it is not a per-item outcome). -/
inductive DispatchOutcome where
  | ok (r : ResponseM)
  | err (e : ExcInstance)
  | unexpected

/-- `RPCInternalError()` with no keyword arguments. -/
def internalErrorPlain : ExcInstance :=
  ⟨"error.rpc.internal", "Internal server error", []⟩

/-- `HTTPRoutes.handle_raw`: `Request.load` failure produces a response with
the recovered raw id and only the error set; a `BaseError` from dispatch
becomes `request.response(error=e)`; any other non-cancellation exception is
logged and becomes `request.response(error=RPCInternalError())`. -/
def handleRaw (load : Value → Except ExcInstance RequestM)
    (dispatch : RequestM → DispatchOutcome) (raw : Value) : ResponseM :=
  match load raw with
  | .error e => ⟨rawRequestId raw, [], none, some e, []⟩
  | .ok req =>
    match dispatch req with
    | .ok r => r
    | .err e => ⟨some (.int req.id), [], none, some e, []⟩
    | .unexpected => ⟨some (.int req.id), [], none, some internalErrorPlain, []⟩

/-- A decoded request body: `isinstance(raw_request, list)` distinguishes a
batch from a single object. -/
inductive DecodedBody where
  | batch (items : List Value)
  | single (v : Value)

inductive WireOutput where
  | batch (rs : List ResponseM)
  | single (r : ResponseM)

/-- The dispatch section of `handle_json` (lines 71-77): a batch is handled
item by item (`asyncio.gather` keeps the i-th result at the i-th position and
`handle_raw` never raises except for cancellation); a single object is
handled alone. -/
def handleDecoded (load : Value → Except ExcInstance RequestM)
    (dispatch : RequestM → DispatchOutcome) : DecodedBody → WireOutput
  | .batch items => .batch (items.map (handleRaw load dispatch))
  | .single v => .single (handleRaw load dispatch v)

/-- What the transport finally sends: the encoded aggregate, or — when
encoding it raised — the single fallback response. -/
inductive FinalOutput where
  | encoded (out : WireOutput)
  | fallback (r : ResponseM)

/-- `Response(error=RPCInternalError())`. -/
def internalErrorResponse : ResponseM :=
  ⟨none, [], none, some internalErrorPlain, []⟩

/-- The serialize section of `handle_json` (lines 79-84): try to encode the
(possibly batched) result; on `ValueError`/`TypeError` log and respond with a
single internal-error response instead, batch or not. -/
def encodeResult (encodable : WireOutput → Bool) (out : WireOutput) :
    FinalOutput :=
  if encodable out then .encoded out else .fallback internalErrorResponse

/-- C4: every batch element is dispatched independently and the i-th response
corresponds to the i-th request element; one element's parse failure, coded
error or undeclared exception yields an error response for that element only
(siblings are computed by the same per-element function, unaffected); a
parse/shape failure's response reuses the raw payload's id when it is an
integer (in the Python sense), else null. -/
theorem batch_isolation :
    (∀ (load : Value → Except ExcInstance RequestM)
        (dispatch : RequestM → DispatchOutcome) (items : List Value),
        handleDecoded load dispatch (.batch items) =
          .batch (items.map (handleRaw load dispatch)))
    ∧ (∀ (load : Value → Except ExcInstance RequestM)
        (dispatch : RequestM → DispatchOutcome) (items : List Value) (i : Nat)
        (h : i < items.length)
        (h2 : i < (items.map (handleRaw load dispatch)).length),
        (items.map (handleRaw load dispatch))[i] =
          handleRaw load dispatch items[i])
    ∧ (∀ (load : Value → Except ExcInstance RequestM)
        (dispatch : RequestM → DispatchOutcome) (raw : Value) (e : ExcInstance),
        load raw = .error e →
        handleRaw load dispatch raw = ⟨rawRequestId raw, [], none, some e, []⟩)
    ∧ (∀ (load : Value → Except ExcInstance RequestM)
        (dispatch : RequestM → DispatchOutcome) (raw : Value) (req : RequestM),
        load raw = .ok req →
        (∀ r, dispatch req = .ok r → handleRaw load dispatch raw = r)
        ∧ (∀ e, dispatch req = .err e →
            handleRaw load dispatch raw =
              ⟨some (.int req.id), [], none, some e, []⟩)
        ∧ (dispatch req = .unexpected →
            handleRaw load dispatch raw =
              ⟨some (.int req.id), [], none, some internalErrorPlain, []⟩))
    ∧ (∀ (kvs : List (String × Value)) (n : Int),
        alistFind? kvs "id" = some (.int n) →
        rawRequestId (.obj kvs) = some (.int n))
    ∧ (∀ (kvs : List (String × Value)) (v : Value),
        alistFind? kvs "id" = some v → pyIsInt v = false →
        rawRequestId (.obj kvs) = none)
    ∧ (∀ kvs : List (String × Value),
        alistFind? kvs "id" = none → rawRequestId (.obj kvs) = none) := by
  refine ⟨fun _ _ _ => rfl, ?_, ?_, ?_, ?_, ?_, ?_⟩
  · intro load dispatch items i h h2
    simp
  · intro load dispatch raw e hload
    simp only [handleRaw, hload]
  · intro load dispatch raw req hload
    refine ⟨?_, ?_, ?_⟩
    · intro r hdisp
      simp only [handleRaw, hload, hdisp]
    · intro e hdisp
      simp only [handleRaw, hload, hdisp]
    · intro hdisp
      simp only [handleRaw, hload, hdisp]
  · intro kvs n hfind
    simp only [rawRequestId, hfind, pyIsInt, if_true]
  · intro kvs v hfind hint
    simp only [rawRequestId, hfind, hint, Bool.false_eq_true, if_false]
  · intro kvs hfind
    simp only [rawRequestId, hfind]

/-- Witness for C4: a two-element batch where the first element fails to
parse (its integer id is recovered) and the second is served normally; a raw
payload with a non-integer id gets a null response id. -/
theorem batch_isolation_witness :
    handleDecoded
        (fun raw => match raw with
          | .obj (("id", Value.int n) :: _) => .ok ⟨n, "sum"⟩
          | _ => .error ⟨"error.rpc.invalid_request", "Invalid request", []⟩)
        (fun req => if req.id = 1
          then .ok ⟨some (.int 1), [], some (.int 3), none, []⟩
          else .unexpected)
        (.batch [.obj [("bad", .null), ("id", .int 7)], .obj [("id", .int 1)]]) =
      .batch
        [⟨some (.int 7), [], none,
          some ⟨"error.rpc.invalid_request", "Invalid request", []⟩, []⟩,
         ⟨some (.int 1), [], some (.int 3), none, []⟩]
    ∧ handleRaw
        (fun _ => .error ⟨"error.rpc.invalid_request", "Invalid request", []⟩)
        (fun _ => .unexpected) (.obj [("id", .str "seven")]) =
      ⟨none, [], none,
        some ⟨"error.rpc.invalid_request", "Invalid request", []⟩, []⟩ := by
  constructor
  · rw [batch_isolation.1]
    rfl
  · have h := (batch_isolation.2.2.1
      (fun _ => .error ⟨"error.rpc.invalid_request", "Invalid request", []⟩)
      (fun _ => .unexpected) (.obj [("id", .str "seven")])
      ⟨"error.rpc.invalid_request", "Invalid request", []⟩ rfl)
    rw [h, batch_isolation.2.2.2.2.2.1 [("id", .str "seven")] (.str "seven") rfl rfl]

/-- C7: when encoding the aggregate output fails, the entire output — batch
or single — is replaced by the one non-batch internal-error response; when
encoding succeeds the aggregate is sent as-is. -/
theorem encoding_failure_fallback :
    (∀ (encodable : WireOutput → Bool) (out : WireOutput),
        encodable out = false →
        encodeResult encodable out = .fallback internalErrorResponse)
    ∧ (∀ (encodable : WireOutput → Bool) (out : WireOutput),
        encodable out = true → encodeResult encodable out = .encoded out) := by
  constructor
  · intro encodable out h
    unfold encodeResult
    rw [h]
    rfl
  · intro encodable out h
    unfold encodeResult
    rw [h]
    rfl

/-- Witness for C7: with a codec that rejects the value, a two-element batch
collapses into the single internal-error response. -/
theorem encoding_failure_fallback_witness :
    encodeResult (fun _ => false)
        (.batch [⟨some (.int 1), [], some (.int 3), none, []⟩,
          ⟨some (.int 2), [], some (.int 4), none, []⟩]) =
      .fallback internalErrorResponse := by
  exact encoding_failure_fallback.1 (fun _ => false)
    (.batch [⟨some (.int 1), [], some (.int 3), none, []⟩,
      ⟨some (.int 2), [], some (.int 4), none, []⟩]) rfl

end Myack
